import Mathlib

/-!
# Verification of the renovation-bot core domain logic

A shallow embedding, in Lean 4, of the pure domain logic of the
`renovation_bot` repository (Python), together with theorems settling the
frozen specification claims.

Conventions of the embedding:
* Python floats used for money and percentages are modelled as `ℚ`
  (all operations involved are exact: `+`, `-`, `/`, comparisons).
* Database rows become Lean structures; a table becomes a `List` of rows;
  a SQL query with `ORDER BY ... LIMIT n` over a deterministic ranking is
  modelled as `take n` of the ranked candidate list.
* Async session plumbing, logging, and display-only message strings are
  dropped; every field and branch that affects the claimed behaviour is kept.
-/

namespace RenovationBot

/-! ## Enums (src/src/bot/db/models.py) -/

/-- `StageStatus` from `models.py`. -/
inductive StageStatus
  | planned
  | in_progress
  | completed
  | delayed
deriving DecidableEq, Repr, BEq

/-- `PaymentStatus` from `models.py`. -/
inductive PaymentStatus
  | recorded
  | in_progress
  | verified
  | paid
  | closed
deriving DecidableEq, Repr, BEq

/-! ## Payment lifecycle (src/src/bot/core/budget_service.py) -/

/-- `PAYMENT_TRANSITIONS` from `budget_service.py`: current status ↦ list of
allowed next statuses, with the forward chain, single-step rollbacks, and
`closed` terminal. -/
def PAYMENT_TRANSITIONS : PaymentStatus → List PaymentStatus
  | .recorded => [.in_progress]
  | .in_progress => [.verified, .recorded]
  | .verified => [.paid, .in_progress]
  | .paid => [.closed, .verified]
  | .closed => []

/-- `get_allowed_payment_transitions` from `budget_service.py`.
(The Python version is a `dict.get` with default `[]`; the table is total.) -/
def get_allowed_payment_transitions (current_status : PaymentStatus) : List PaymentStatus :=
  PAYMENT_TRANSITIONS current_status

/-- `validate_payment_transition` from `budget_service.py`; returns
`(is_valid, error_message)`.  The error text is display-only and modelled
as a fixed marker string. -/
def validate_payment_transition (current_status new_status : PaymentStatus) :
    Bool × String :=
  if (get_allowed_payment_transitions current_status).contains new_status then
    (true, "")
  else
    (false, "invalid transition")

/-! ## Budget analysis (src/src/bot/core/budget_service.py) -/

/-- The three budget classifications produced by `analyze_budget`. -/
inductive BudgetStatus
  | ok
  | warning
  | over
deriving DecidableEq, Repr, BEq

/-- Result record of `analyze_budget` (the display-only `message` field
is omitted). -/
structure BudgetAnalysis where
  has_budget : Bool
  remaining : ℚ
  usage_pct : ℚ
  status : BudgetStatus
deriving DecidableEq, Repr

/-- `analyze_budget` from `budget_service.py`.  The Python guard
`if not total_budget or total_budget <= 0` is `None`, `0` (falsy) or
non-positive; for a rational `b` this is exactly `b ≤ 0`.
`total_prepayments` is accepted and unused, as in the source. -/
def analyze_budget (total_budget : Option ℚ) (total_spent : ℚ)
    (_total_prepayments : ℚ) : BudgetAnalysis :=
  match total_budget with
  | none => ⟨false, 0, 0, .ok⟩
  | some tb =>
    if tb ≤ 0 then ⟨false, 0, 0, .ok⟩
    else
      let remaining : ℚ := tb - total_spent
      let usage_pct : ℚ := (total_spent / tb) * 100
      if total_spent > tb then ⟨true, remaining, usage_pct, .over⟩
      else if usage_pct ≥ 90 then ⟨true, remaining, usage_pct, .warning⟩
      else ⟨true, remaining, usage_pct, .ok⟩

/-! ## Stage templates (src/src/bot/core/stage_templates.py) -/

/-- One stage definition, as consumed by `create_stages_for_project`
(`repositories.py`), which defaults both flags to `False` when absent. -/
structure StageDef where
  name : String
  order : Nat
  is_checkpoint : Bool
  is_parallel : Bool
deriving DecidableEq, Repr

/-- `STANDARD_STAGES` from `stage_templates.py`: the 13 sequential stages
(no `is_parallel` key in the source, so it defaults to `False`). -/
def STANDARD_STAGES : List StageDef :=
  [⟨"Демонтаж", 1, false, false⟩,
   ⟨"Электрика", 2, true, false⟩,
   ⟨"Сантехника", 3, true, false⟩,
   ⟨"Штукатурка", 4, false, false⟩,
   ⟨"Стяжка пола", 5, false, false⟩,
   ⟨"Плитка", 6, true, false⟩,
   ⟨"Шпаклёвка", 7, true, false⟩,
   ⟨"Покраска / обои", 8, false, false⟩,
   ⟨"Напольное покрытие", 9, false, false⟩,
   ⟨"Установка дверей", 10, false, false⟩,
   ⟨"Чистовая электрика", 11, false, false⟩,
   ⟨"Чистовая сантехника", 12, false, false⟩,
   ⟨"Финальная приёмка", 13, true, false⟩]

/-- `CUSTOM_ITEM_LABELS` from `stage_templates.py`. -/
def CUSTOM_ITEM_LABELS : List (String × String) :=
  [("kitchen", "Кухня"),
   ("wardrobes", "Шкафы"),
   ("walkin", "Гардеробная"),
   ("doors", "Двери на заказ")]

/-- `CUSTOM_ITEM_LABELS.get(item_key, item_key)` from `build_parallel_stages`. -/
def custom_item_label (item_key : String) : String :=
  (CUSTOM_ITEM_LABELS.lookup item_key).getD item_key

/-- `CUSTOM_ITEM_SUBSTAGES` from `stage_templates.py`. -/
def CUSTOM_ITEM_SUBSTAGES : List String :=
  ["Замер", "Договор и предоплата", "Производство", "Доставка", "Монтаж"]

/-- The double loop of `build_parallel_stages`, with the `enumerate` index
of the outer loop made explicit. -/
def build_parallel_stages_aux (start_order : Nat) : Nat → List String → List StageDef
  | _, [] => []
  | idx, item :: rest =>
    (CUSTOM_ITEM_SUBSTAGES.enum.map (fun q =>
      ⟨custom_item_label item ++ " → " ++ q.2,
       start_order + idx * 10 + q.1, false, true⟩))
    ++ build_parallel_stages_aux start_order (idx + 1) rest

/-- `build_parallel_stages` from `stage_templates.py` (the Python default
`start_order=100` is supplied by the caller here). -/
def build_parallel_stages (selected_items : List String) (start_order : Nat) :
    List StageDef :=
  build_parallel_stages_aux start_order 0 selected_items

/-- The stage definitions assembled by `create_renovation_project`
(`project_service.py`): the standard template, extended with parallel
stages when `custom_items` is non-empty (Python's `if custom_items:`). -/
def project_stage_defs (custom_items : List String) : List StageDef :=
  STANDARD_STAGES ++
    (if custom_items.isEmpty then [] else build_parallel_stages custom_items 100)

/-! ## Scheduler: status-update prompts
(src/src/bot/db/repositories.py, src/src/bot/core/scheduler.py) -/

/-- The projection of a `Stage` row (joined with its `Project`) used by
`get_stages_needing_status_update`.  `updated_at` is the last-activity
timestamp, in days. -/
structure SchedStage where
  id : Nat
  status : StageStatus
  responsible_user_id : Option Nat
  project_is_active : Bool
  updated_at : Int
deriving DecidableEq, Repr

/-- `get_stages_needing_status_update` from `repositories.py`.  The source
computes `cutoff = now - timedelta(days=idle_days)` but the query's
`where` clause never references it: it filters only on project activity,
`IN_PROGRESS` status, and a non-null responsible user. -/
def get_stages_needing_status_update (stages : List SchedStage)
    (now idle_days : Int) : List SchedStage :=
  let _cutoff : Int := now - idle_days
  stages.filter (fun s =>
    s.project_is_active && (s.status == StageStatus.in_progress) &&
      s.responsible_user_id.isSome)

/-- `_check_status_updates` from `scheduler.py`: one
`status_update_request` notification `(stage_id, recipient)` per returned
stage that has a responsible user. -/
def check_status_updates (stages : List SchedStage) (now : Int) :
    List (Nat × Nat) :=
  (get_stages_needing_status_update stages now 3).filterMap (fun s =>
    s.responsible_user_id.map (fun uid => (s.id, uid)))

/-- A stage whose last activity is *today*: `in_progress`, responsible
user set, `updated_at = now = 1000`. -/
def freshStage : SchedStage := ⟨1, .in_progress, some 9, true, 1000⟩

/-! ## Multi-tenant project listing -/

/-- Modelled from the spec: a project row carrying the `tenant_id` column
of the spec's data model (`Project: id, tenant_id, …, is_active`); the
`models.py` in the source tree lacks this column although `admin_api.py`
imports a `Tenant` model and the handlers pass `tenant_id` around. -/
structure TProject where
  id : Nat
  tenant_id : Nat
  is_active : Bool
deriving DecidableEq, Repr

/-- `ProjectRole` from `models.py`, reduced to the linking columns. -/
structure TProjectRole where
  project_id : Nat
  user_id : Nat
deriving DecidableEq, Repr

/-- The two tables consulted by the project listing. -/
structure TenantDb where
  projects : List TProject
  roles : List TProjectRole
deriving DecidableEq, Repr

/-- Modelled from the spec: the tenant-aware
`get_user_projects(user, tenant=T)`.  The snapshot's `repositories.py`
defines `get_user_projects(session, user_id)` without a `tenant_id`
parameter, yet its callers (`project_resolver.py:119`, `handlers.py:122`,
`group_handlers.py:195`) invoke it with `tenant_id=...`: the tenant-aware
query is missing from the tree.  Following the spec, it returns the
active projects where the user holds a role, filtered by the caller's
`tenant_id`. -/
def get_user_projects (db : TenantDb) (user_id tenant_id : Nat) :
    List TProject :=
  db.projects.filter (fun p =>
    p.is_active && (p.tenant_id == tenant_id) &&
      db.roles.any (fun r => (r.project_id == p.id) && (r.user_id == user_id)))

/-- A two-tenant database: user 5 holds roles on project 1 (tenant 7) and
project 2 (tenant 8). -/
def sampleTenantDb : TenantDb :=
  ⟨[⟨1, 7, true⟩, ⟨2, 8, true⟩], [⟨1, 5⟩, ⟨2, 5⟩]⟩

/-! ## Mention gate (src/src/bot/adapters/telegram/mention_gate.py) -/

/-- Telegram chat types relevant to the gate. -/
inductive ChatType
  | private_chat
  | group
  | supergroup
  | channel
deriving DecidableEq, Repr, BEq

/-- The parts of an incoming Telegram message inspected by the gate and
the storage handler.  Entity offsets are abstracted away: each `mention`
entity is represented by the text slice it denotes, each `text_mention`
by its user id. -/
structure GateMessage where
  chat_type : ChatType
  text : Option String
  caption : Option String
  reply_to_from_user_id : Option Nat
  mention_texts : List String
  text_mention_user_ids : List Nat
  caption_mention_texts : List String
  caption_text_mention_user_ids : List Nat
deriving DecidableEq, Repr

/-- Python `s.strip()` (whitespace from both ends), spelled out over the
character list so that it evaluates by reduction. -/
def py_strip (s : String) : String :=
  String.mk
    (((s.toList.dropWhile Char.isWhitespace).reverse.dropWhile
        Char.isWhitespace).reverse)

/-- Python `s.startswith(pre)`. -/
def py_startswith (s pre : String) : Bool :=
  pre.toList.isPrefixOf s.toList

/-- Python `s.lower().lstrip("@")`, as applied to mention slices and to
the configured bot username. -/
def lower_lstrip_at (s : String) : String :=
  s.toLower.dropWhile (fun c => c == '@')

/-- Python `a or b` for strings: `a` unless it is `None` or empty. -/
def py_str_or (a : Option String) (default : String) : String :=
  match a with
  | some s => if s == "" then default else s
  | none => default

/-- `MentionGateMiddleware._is_directed_at_bot`: reply to the bot, an
`@mention`/`text_mention` of the bot in text or caption entities, or a
custom pattern match on `text or caption or ""`.  The compiled regex
patterns are modelled as their match predicates. -/
def is_directed_at_bot (bot_id : Nat) (bot_username_norm : String)
    (patterns : List (String → Bool)) (m : GateMessage) : Bool :=
  (match m.reply_to_from_user_id with
   | some uid => uid == bot_id
   | none => false) ||
  m.mention_texts.any (fun t => lower_lstrip_at t == bot_username_norm) ||
  m.text_mention_user_ids.any (fun uid => uid == bot_id) ||
  m.caption_mention_texts.any (fun t => lower_lstrip_at t == bot_username_norm) ||
  m.caption_text_mention_user_ids.any (fun uid => uid == bot_id) ||
  patterns.any (fun p => p (py_str_or m.text (py_str_or m.caption "")))

/-- Outcome of the outer middleware for one message event. -/
inductive GateDecision
  | pass
  | drop
deriving DecidableEq, Repr

/-- `MentionGateMiddleware.__call__` on a `Message` event: private chats,
a disabled gate, commands, and messages directed at the bot pass; every
other group message is dropped (`return None` — the handler chain is not
invoked and nothing is attached to the handler data). -/
def mention_gate (enabled : Bool) (bot_id : Nat) (bot_username_norm : String)
    (patterns : List (String → Bool)) (m : GateMessage) : GateDecision :=
  if m.chat_type == ChatType.private_chat then .pass
  else if !enabled then .pass
  else if (match m.text with
           | some t => py_startswith t "/"
           | none => false) then .pass
  else if is_directed_at_bot bot_id bot_username_norm patterns m then .pass
  else .drop

/-! ## Message storage (src/src/bot/db/repositories.py,
src/src/bot/adapters/telegram/ai_handlers.py,
src/src/bot/services/embedding_service.py,
src/src/bot/services/media_service.py) -/

/-- A `Message` row (`models.py`); the columns written by
`create_message` that matter to ingest (type and `file_ref` omitted). -/
structure MessageRow where
  project_id : Option Nat
  user_id : Option Nat
  platform : String
  platform_chat_id : String
  platform_message_id : Option String
  raw_text : Option String
  transcribed_text : Option String
deriving DecidableEq, Repr

/-- An `Embedding` row (`models.py`), reduced to owner and content. -/
structure EmbeddingRow where
  project_id : Nat
  content : String
deriving DecidableEq, Repr

/-- The two tables touched by ingest. -/
structure Store where
  messages : List MessageRow
  embeddings : List EmbeddingRow
deriving DecidableEq, Repr

/-- `create_message` from `repositories.py`: unconditionally inserts a
new row — there is no lookup on `(platform, platform_message_id)` and no
unique constraint on those columns in `models.py`. -/
def create_message (st : Store) (row : MessageRow) : Store :=
  ⟨st.messages ++ [row], st.embeddings⟩

/-- `embed_and_store` from `embedding_service.py`: skips when AI is not
configured or the content is blank, else inserts an `Embedding` row. -/
def embed_and_store (ai_configured : Bool) (st : Store) (project_id : Nat)
    (content : String) : Store :=
  if !ai_configured then st
  else if py_strip content == "" then st
  else ⟨st.messages, st.embeddings ++ [⟨project_id, content⟩]⟩

/-- Python's `s and s.strip()` idiom: the stripped string when non-blank. -/
def opt_strip (o : Option String) : Option String :=
  match o with
  | some s => if py_strip s == "" then none else some (py_strip s)
  | none => none

/-- `build_message_text` from `media_service.py`: transcribed text is
preferred, then raw text, else `None` (`message_type` is unused there). -/
def build_message_text (raw_text transcribed_text : Option String) :
    Option String :=
  match opt_strip transcribed_text with
  | some t => some t
  | none => opt_strip raw_text

/-- `_store_and_embed_message` from `ai_handlers.py`: always stores the
message row; embeds the canonical text when a (truthy) project id and a
non-empty canonical text exist. -/
def store_and_embed_message (ai_configured : Bool) (st : Store)
    (project_id user_id : Option Nat) (chat_id : String)
    (message_id : Option String) (raw_text transcribed_text : Option String) :
    Store :=
  let st1 := create_message st
    ⟨project_id, user_id, "telegram", chat_id, message_id, raw_text, transcribed_text⟩
  match project_id, build_message_text raw_text transcribed_text with
  | some pid, some canonical =>
    if (pid != 0) && (canonical != "") then
      embed_and_store ai_configured st1 pid canonical
    else st1
  | some _, none => st1
  | none, _ => st1

/-- `store_text_message` from `ai_handlers.py` (the `F.text` handler):
skips very short texts, then stores and embeds.  The resolved
`(user_id, project_id)` of `_resolve_project_for_storage` are taken as
inputs. -/
def store_text_message (ai_configured : Bool) (st : Store) (m : GateMessage)
    (user_id project_id : Option Nat) (chat_id message_id : String) : Store :=
  match m.text with
  | none => st
  | some text =>
    if (py_strip text).length < 3 then st
    else
      store_and_embed_message ai_configured st project_id user_id chat_id
        (some message_id) (some text) (some text)

/-- The dispatcher path for a non-command group text message:
`MentionGateMiddleware` is the outer middleware, so when it drops the
message no handler (in particular not `store_text_message`) runs and no
reply is sent.  The returned flag records whether the handler chain was
invoked. -/
def dispatch_group_text (enabled : Bool) (bot_id : Nat)
    (bot_username_norm : String) (patterns : List (String → Bool))
    (ai_configured : Bool) (m : GateMessage) (user_id project_id : Option Nat)
    (chat_id message_id : String) (st : Store) : Store × Bool :=
  match mention_gate enabled bot_id bot_username_norm patterns m with
  | .drop => (st, false)
  | .pass =>
    (store_text_message ai_configured st m user_id project_id chat_id message_id,
     true)

/-- An undirected group text: no command prefix, no mention entities, not
a reply, and no custom pattern configured. -/
def c2_message : GateMessage :=
  ⟨.group, some "обсуждаем плитку на кухне", none, none, [], [], [], []⟩

/-- One ingest of a fixed group text: telegram message id "77", resolved
project 3, user 5, AI configured. -/
def ingest_once (st : Store) : Store :=
  store_and_embed_message true st (some 3) (some 5) "-100500" (some "77")
    (some "привет бригада") (some "привет бригада")

/-! ## A stable sort that evaluates by reduction

Python's `sorted` (and SQL `ORDER BY` as modelled here) is a stable sort;
`stable_sort` below inserts each element after the already-placed elements
it ties with, which reproduces that behaviour and reduces in the kernel. -/

/-- Insert `a` after every element `b` of the (sorted) list with `le b a`. -/
def stable_insert {α : Type} (le : α → α → Bool) (a : α) : List α → List α
  | [] => [a]
  | b :: t => if le b a then b :: stable_insert le a t else a :: b :: t

/-- Stable sort: fold the input left-to-right into a sorted accumulator. -/
def stable_sort {α : Type} (le : α → α → Bool) (l : List α) : List α :=
  l.foldl (fun acc a => stable_insert le a acc) []

/-! ## Stage advancement and checkpoints
(src/src/bot/adapters/telegram/notification_handlers.py,
src/src/bot/db/repositories.py) -/

/-- A `Stage` row of one project, reduced to the columns the advancement
logic reads or writes. -/
structure MStage where
  id : Nat
  order : Nat
  status : StageStatus
  is_checkpoint : Bool
  is_parallel : Bool
deriving DecidableEq, Repr

/-- `get_next_stage` from `repositories.py`: among the stages of the same
project with `order` strictly greater than the given stage's `order`,
the first by ascending `order` — there is **no** `is_parallel` filter in
the query. -/
def get_next_stage (stages : List MStage) (s : MStage) : Option MStage :=
  (stable_sort (fun a b => decide (a.order ≤ b.order))
      (stages.filter (fun t => decide (s.order < t.order)))).head?

/-- The ORM mutation `stage.status = st` followed by `flush`: rewrite the
status of the row(s) with the given id. -/
def set_status (stages : List MStage) (sid : Nat) (st : StageStatus) :
    List MStage :=
  stages.map (fun t =>
    if t.id == sid then ⟨t.id, t.order, st, t.is_checkpoint, t.is_parallel⟩ else t)

/-- `get_stage_with_substages` reduced to the row lookup by id. -/
def find_stage (stages : List MStage) (sid : Nat) : Option MStage :=
  stages.find? (fun t => t.id == sid)

/-- `on_stage_complete` from `notification_handlers.py`: mark the stage
completed; if it is a checkpoint, stop and ask the owner (no other row is
touched); otherwise auto-advance the next stage by order to
`in_progress`. -/
def on_stage_complete (stages : List MStage) (stage_id : Nat) : List MStage :=
  match find_stage stages stage_id with
  | none => stages
  | some s =>
    let stages1 := set_status stages s.id .completed
    if s.is_checkpoint then stages1
    else
      match get_next_stage stages1 s with
      | some nxt => set_status stages1 nxt.id .in_progress
      | none => stages1

/-- The `approve` branch of `on_checkpoint_action`: move the next stage
by order (parallel or not) to `in_progress`. -/
def on_checkpoint_approve (stages : List MStage) (stage_id : Nat) :
    List MStage :=
  match find_stage stages stage_id with
  | none => stages
  | some s =>
    match get_next_stage stages s with
    | some nxt => set_status stages nxt.id .in_progress
    | none => stages

/-- The `reject` branch of `on_checkpoint_action`: the completed stage
goes back to `delayed`. -/
def on_checkpoint_reject (stages : List MStage) (stage_id : Nat) :
    List MStage :=
  match find_stage stages stage_id with
  | none => stages
  | some s => set_status stages s.id .delayed

/-- A completed final checkpoint (order 13) followed only by a parallel
furniture stage (order 100). -/
def c3_stages : List MStage :=
  [⟨1, 13, .completed, true, false⟩, ⟨2, 100, .planned, false, true⟩]

/-! ## Hybrid search (src/src/bot/services/embedding_service.py)

Each search arm is a SQL query ordered by a deterministic ranking with
`LIMIT top_k`; the DB's full ranked candidate list for the query is the
model input, and the query returns its first `top_k` entries.  Similarity
values, ranks and metadata are carried by the rows but the fusion only
uses list positions, so a row is reduced to `(id, content)`. -/

/-- One row returned by a search arm. -/
structure SearchHit where
  id : Nat
  content : String
deriving DecidableEq, Repr

/-- The two retrieval arms, as recorded in the `sources` annotation. -/
inductive Arm
  | vector
  | fts
deriving DecidableEq, Repr

/-- One fused result of `search_hybrid`. -/
structure FusedResult where
  id : Nat
  content : String
  score : ℚ
  sources : List Arm
deriving DecidableEq, Repr

/-- `search_similar`: the cosine-ranked candidates, `LIMIT top_k`
(`min_similarity` is part of the ranked list's construction). -/
def search_similar (ranked : List SearchHit) (top_k : Nat) : List SearchHit :=
  ranked.take top_k

/-- `search_fulltext`: the `ts_rank`-ordered candidates, `LIMIT top_k`. -/
def search_fulltext (ranked : List SearchHit) (top_k : Nat) : List SearchHit :=
  ranked.take top_k

/-- The update applied to an existing entry of the `merged` dict when the
arm hits its id at rank `rank_pos`: add `w / (60 + rank_pos + 1)` to its
score and append the arm to its sources. -/
def bumpIf (arm : Arm) (w : ℚ) (rank_pos : Nat) (hid : Nat)
    (r : FusedResult) : FusedResult :=
  if r.id == hid then
    ⟨r.id, r.content, r.score + w / (60 + (rank_pos : ℚ) + 1), r.sources ++ [arm]⟩
  else r

/-- One iteration of a fusion loop of `search_hybrid`: an id already in
the insertion-ordered `merged` dict is updated in place, a new id is
appended with score `w / (60 + rank_pos + 1)`. -/
def rrfUpdate (arm : Arm) (w : ℚ) (rank_pos : Nat) (hit : SearchHit)
    (merged : List FusedResult) : List FusedResult :=
  if merged.any (fun r => r.id == hit.id) then
    merged.map (bumpIf arm w rank_pos hit.id)
  else
    merged ++ [⟨hit.id, hit.content, w / (60 + (rank_pos : ℚ) + 1), [arm]⟩]

/-- `for rank_pos, item in enumerate(results): ...` — one arm's fusion
loop, with the enumeration index explicit. -/
def addArmHits (arm : Arm) (w : ℚ) :
    Nat → List SearchHit → List FusedResult → List FusedResult
  | _, [], merged => merged
  | rank_pos, hit :: rest, merged =>
    addArmHits arm w (rank_pos + 1) rest (rrfUpdate arm w rank_pos hit merged)

/-- The insertion-ordered RRF score map built by `search_hybrid` from the
two arms' results. -/
def hybrid_merged (vector_results fts_results : List SearchHit)
    (vector_weight fts_weight : ℚ) : List FusedResult :=
  addArmHits .fts fts_weight 0 fts_results
    (addArmHits .vector vector_weight 0 vector_results [])

/-- `search_hybrid`: run both arms over-fetching `top_k * 2`, fuse with
weighted Reciprocal Rank Fusion (`RRF_K = 60`), sort by fused score
descending (Python's `sorted` is stable) and trim to `top_k`. -/
def search_hybrid (vecRanked ftsRanked : List SearchHit) (top_k : Nat)
    (vector_weight fts_weight : ℚ) : List FusedResult :=
  let vector_results := search_similar vecRanked (top_k * 2)
  let fts_results := search_fulltext ftsRanked (top_k * 2)
  let merged := hybrid_merged vector_results fts_results vector_weight fts_weight
  (stable_sort (fun a b => decide (b.score ≤ a.score)) merged).take top_k

/-- The RRF contribution of one arm to candidate `i`: `w / (60 + rank + 1)`
when the arm's result list contains `i` at 0-based `rank`, else 0. -/
def rrfContrib (w : ℚ) (l : List SearchHit) (i : Nat) : ℚ :=
  match l.findIdx? (fun h => h.id == i) with
  | some r => w / (60 + (r : ℚ) + 1)
  | none => 0

/-- The subset of arms whose result list contains candidate `i`. -/
def armsOf (vec fts : List SearchHit) (i : Nat) : List Arm :=
  (if vec.any (fun h => h.id == i) then [Arm.vector] else []) ++
    (if fts.any (fun h => h.id == i) then [Arm.fts] else [])

/-- Closed form of one arm's loop effect on an entry already present:
bump by the arm's contribution if the arm (enumerated from `r0`) hits the
entry's id. -/
def updateAll (arm : Arm) (w : ℚ) (r0 : Nat) (hits : List SearchHit)
    (y : FusedResult) : FusedResult :=
  match hits.findIdx? (fun h => h.id == y.id) with
  | some j => ⟨y.id, y.content, y.score + w / (60 + ((r0 + j : Nat) : ℚ) + 1),
               y.sources ++ [arm]⟩
  | none => y

/-- Closed form of the entries one arm's loop appends: its hits whose ids
are not yet in the map, in arm order, scored by their arm rank. -/
def newItems (arm : Arm) (w : ℚ) (r0 : Nat) (hits : List SearchHit)
    (mergedIds : List Nat) : List FusedResult :=
  (hits.enum.filter (fun p => !(mergedIds.contains p.2.id))).map
    (fun p => ⟨p.2.id, p.2.content, w / (60 + ((r0 + p.1 : Nat) : ℚ) + 1), [arm]⟩)

/-- Closed form of one arm's loop run on an empty map: every hit becomes
an entry, scored by its rank. -/
def armBase (arm : Arm) (w : ℚ) (hits : List SearchHit) : List FusedResult :=
  hits.enum.map (fun p =>
    ⟨p.2.id, p.2.content, w / (60 + (p.1 : ℚ) + 1), [arm]⟩)

/-! ## Lemmas about the stage templates -/

theorem build_parallel_stages_aux_length (s : Nat) (cs : List String) :
    ∀ i0 : Nat, (build_parallel_stages_aux s i0 cs).length = 5 * cs.length := by
  induction cs with
  | nil => intro i0; rfl
  | cons c rest ih =>
    intro i0
    simp only [build_parallel_stages_aux, List.length_append, List.length_map,
      ih (i0 + 1), List.length_cons]
    simp [CUSTOM_ITEM_SUBSTAGES]
    omega

theorem inner_block_eq (item : String) (s idx : Nat) :
    CUSTOM_ITEM_SUBSTAGES.enum.map (fun q =>
      (⟨custom_item_label item ++ " → " ++ q.2, s + idx * 10 + q.1, false, true⟩ : StageDef)) =
    [⟨custom_item_label item ++ " → " ++ "Замер", s + idx * 10 + 0, false, true⟩,
     ⟨custom_item_label item ++ " → " ++ "Договор и предоплата", s + idx * 10 + 1, false, true⟩,
     ⟨custom_item_label item ++ " → " ++ "Производство", s + idx * 10 + 2, false, true⟩,
     ⟨custom_item_label item ++ " → " ++ "Доставка", s + idx * 10 + 3, false, true⟩,
     ⟨custom_item_label item ++ " → " ++ "Монтаж", s + idx * 10 + 4, false, true⟩] := rfl

theorem build_parallel_stages_aux_getElem (s : Nat) (cs : List String) :
    ∀ i0 i j : Nat, i < cs.length → j < 5 →
      (build_parallel_stages_aux s i0 cs)[5 * i + j]? =
        some ⟨custom_item_label (cs.getD i "") ++ " → " ++ CUSTOM_ITEM_SUBSTAGES.getD j "",
              s + (i0 + i) * 10 + j, false, true⟩ := by
  induction cs with
  | nil => intro i0 i j hi _; exact absurd hi (Nat.not_lt_zero i)
  | cons c rest ih =>
    intro i0 i j hi hj
    cases i with
    | zero =>
      rw [build_parallel_stages_aux, inner_block_eq]
      interval_cases j <;>
        simp [List.getElem?_append, CUSTOM_ITEM_SUBSTAGES, custom_item_label]
    | succ i' =>
      have hi' : i' < rest.length := by
        simpa using Nat.lt_of_succ_lt_succ hi
      have hlen : (CUSTOM_ITEM_SUBSTAGES.enum.map (fun q =>
          (⟨custom_item_label c ++ " → " ++ q.2,
            s + i0 * 10 + q.1, false, true⟩ : StageDef))).length = 5 := rfl
      rw [build_parallel_stages_aux,
        List.getElem?_append_right (by rw [hlen]; omega), hlen]
      have hidx : 5 * (i' + 1) + j - 5 = 5 * i' + j := by omega
      rw [hidx, ih (i0 + 1) i' j hi' hj]
      have harith : i0 + 1 + i' = i0 + (i' + 1) := by omega
      rw [harith]
      rfl

/-! ## Lemmas about the stable sort -/

theorem stable_insert_perm {α : Type} (le : α → α → Bool) (a : α) (l : List α) :
    (stable_insert le a l).Perm (a :: l) := by
  induction l with
  | nil => exact List.Perm.refl _
  | cons b t ih =>
    rw [stable_insert]
    by_cases h : le b a = true
    · rw [if_pos h]
      exact (ih.cons b).trans (List.Perm.swap a b t)
    · rw [if_neg h]

theorem stable_insert_mem {α : Type} {le : α → α → Bool} {a x : α} {l : List α} :
    x ∈ stable_insert le a l ↔ x = a ∨ x ∈ l := by
  rw [(stable_insert_perm le a l).mem_iff, List.mem_cons]

theorem stable_sort_perm_aux {α : Type} (le : α → α → Bool) (l : List α) :
    ∀ acc : List α,
      (l.foldl (fun acc a => stable_insert le a acc) acc).Perm (acc ++ l) := by
  induction l with
  | nil => intro acc; simp
  | cons a t ih =>
    intro acc
    have h1 := ih (stable_insert le a acc)
    have h2 : (stable_insert le a acc ++ t).Perm ((a :: acc) ++ t) :=
      (stable_insert_perm le a acc).append_right t
    exact (h1.trans h2).trans (by simpa using List.perm_middle.symm)

theorem stable_sort_perm {α : Type} (le : α → α → Bool) (l : List α) :
    (stable_sort le l).Perm l := by
  simpa using stable_sort_perm_aux le l []

theorem stable_insert_pairwise {α : Type} {le : α → α → Bool}
    (htot : ∀ x y, le x y = true ∨ le y x = true)
    (htrans : ∀ x y z, le x y = true → le y z = true → le x z = true)
    (a : α) (l : List α) (hl : l.Pairwise (fun x y => le x y = true)) :
    (stable_insert le a l).Pairwise (fun x y => le x y = true) := by
  induction l with
  | nil => simp [stable_insert]
  | cons b t ih =>
    rcases List.pairwise_cons.mp hl with ⟨hb, ht⟩
    rw [stable_insert]
    by_cases h : le b a = true
    · rw [if_pos h]
      refine List.pairwise_cons.mpr ⟨?_, ih ht⟩
      intro x hx
      rcases stable_insert_mem.mp hx with rfl | hx
      · exact h
      · exact hb x hx
    · rw [if_neg h]
      have hab : le a b = true := by
        rcases htot a b with h1 | h1
        · exact h1
        · exact absurd h1 h
      refine List.pairwise_cons.mpr ⟨?_, hl⟩
      intro x hx
      rcases List.mem_cons.mp hx with rfl | hx
      · exact hab
      · exact htrans a b x hab (hb x hx)

theorem stable_sort_pairwise_aux {α : Type} {le : α → α → Bool}
    (htot : ∀ x y, le x y = true ∨ le y x = true)
    (htrans : ∀ x y z, le x y = true → le y z = true → le x z = true)
    (l : List α) :
    ∀ acc : List α, acc.Pairwise (fun x y => le x y = true) →
      (l.foldl (fun acc a => stable_insert le a acc) acc).Pairwise
        (fun x y => le x y = true) := by
  induction l with
  | nil => intro acc hacc; exact hacc
  | cons a t ih =>
    intro acc hacc
    exact ih (stable_insert le a acc) (stable_insert_pairwise htot htrans a acc hacc)

theorem stable_sort_pairwise {α : Type} {le : α → α → Bool}
    (htot : ∀ x y, le x y = true ∨ le y x = true)
    (htrans : ∀ x y z, le x y = true → le y z = true → le x z = true)
    (l : List α) :
    (stable_sort le l).Pairwise (fun x y => le x y = true) :=
  stable_sort_pairwise_aux htot htrans l [] (List.Pairwise.nil)

/-! ## Lemmas about stage advancement -/

theorem get_next_stage_spec (stages : List MStage) (s n : MStage)
    (h : get_next_stage stages s = some n) :
    n ∈ stages ∧ s.order < n.order ∧
      ∀ u ∈ stages, s.order < u.order → n.order ≤ u.order := by
  rw [get_next_stage] at h
  set le : MStage → MStage → Bool := fun a b => decide (a.order ≤ b.order) with hle
  set fl : List MStage := stages.filter (fun t => decide (s.order < t.order)) with hfl
  obtain ⟨t, hsrt⟩ : ∃ t, stable_sort le fl = n :: t := by
    cases hq : stable_sort le fl with
    | nil => rw [hq] at h; simp at h
    | cons x xt =>
      rw [hq] at h
      simp only [List.head?] at h
      exact ⟨xt, by rw [Option.some_inj.mp h]⟩
  have hperm := stable_sort_perm le fl
  have hnfl : n ∈ fl := by
    have : n ∈ stable_sort le fl := by rw [hsrt]; exact List.mem_cons_self n t
    exact hperm.mem_iff.mp this
  have hnst := List.mem_filter.mp hnfl
  refine ⟨hnst.1, by simpa using hnst.2, ?_⟩
  intro u hu hsu
  have hufl : u ∈ fl := List.mem_filter.mpr ⟨hu, by simpa using hsu⟩
  have husrt : u ∈ stable_sort le fl := hperm.mem_iff.mpr hufl
  rw [hsrt] at husrt
  rcases List.mem_cons.mp husrt with rfl | hut
  · exact Nat.le_refl _
  · have hpw := @stable_sort_pairwise MStage le
      (fun x y => by simpa [hle] using Nat.le_total x.order y.order)
      (fun x y z hxy hyz => by
        simp only [hle, decide_eq_true_eq] at hxy hyz ⊢
        exact Nat.le_trans hxy hyz) fl
    rw [hsrt, List.pairwise_cons] at hpw
    have := hpw.1 u hut
    simpa [hle] using this

theorem find_stage_set_status_ne (stages : List MStage) (sid sid2 : Nat)
    (st : StageStatus) (h : sid2 ≠ sid) :
    find_stage (set_status stages sid st) sid2 = find_stage stages sid2 := by
  induction stages with
  | nil => rfl
  | cons t rest ih =>
    rw [set_status, List.map_cons]
    by_cases ht : t.id = sid
    · have hL : ((if t.id == sid then
          (⟨t.id, t.order, st, t.is_checkpoint, t.is_parallel⟩ : MStage)
          else t)) = ⟨t.id, t.order, st, t.is_checkpoint, t.is_parallel⟩ := by
        simp [ht]
      rw [find_stage, hL, List.find?_cons_of_neg _ (by simp [ht, Ne.symm h]),
        find_stage, List.find?_cons_of_neg _ (by simp [ht, Ne.symm h])]
      exact ih
    · have hL : ((if t.id == sid then
          (⟨t.id, t.order, st, t.is_checkpoint, t.is_parallel⟩ : MStage)
          else t)) = t := by simp [ht]
      rw [find_stage, hL]
      by_cases h2 : t.id = sid2
      · rw [List.find?_cons_of_pos _ (by simp [h2]), find_stage,
          List.find?_cons_of_pos _ (by simp [h2])]
      · rw [List.find?_cons_of_neg _ (by simp [h2]), find_stage,
          List.find?_cons_of_neg _ (by simp [h2])]
        exact ih

/-! ## Theorems for the payment lifecycle and budget analysis -/

/-- C5: `validate_payment_transition a b` accepts exactly when `b` is in the
allowed-next-states table for `a`: each forward step
recorded→in_progress→verified→paid→closed is allowed, a backward transition
to the immediate predecessor is allowed from in_progress, verified and paid,
and no transition leaves `closed` (closed is terminal). -/
theorem validate_payment_transition_table (a b : PaymentStatus) :
    (validate_payment_transition a b).1 = true ↔
      ((a = .recorded ∧ b = .in_progress) ∨
       (a = .in_progress ∧ b = .verified) ∨
       (a = .verified ∧ b = .paid) ∨
       (a = .paid ∧ b = .closed) ∨
       (a = .in_progress ∧ b = .recorded) ∨
       (a = .verified ∧ b = .in_progress) ∨
       (a = .paid ∧ b = .verified)) := by
  cases a <;> cases b <;> decide

/-- C10: when `total_budget` is `None` or not greater than 0, `analyze_budget`
reports no budget, zero remaining, zero usage, and status `ok`, whatever the
spent and prepayment amounts are; such a project is never classified
`warning` or `over`. -/
theorem analyze_budget_no_budget (tb : Option ℚ) (spent prepay : ℚ)
    (h : tb = none ∨ ∃ b, tb = some b ∧ b ≤ 0) :
    analyze_budget tb spent prepay =
      ⟨false, 0, 0, BudgetStatus.ok⟩ := by
  rcases h with h | ⟨b, rfl, hb⟩
  · subst h; rfl
  · simp [analyze_budget, if_pos hb]

/-- Witness for C10 at a concrete input: a negative budget with positive
spending is still classified `ok` with no budget. -/
theorem analyze_budget_no_budget_witness :
    analyze_budget (some (-5)) 1000 3 = ⟨false, 0, 0, BudgetStatus.ok⟩ :=
  analyze_budget_no_budget (some (-5)) 1000 3 (Or.inr ⟨-5, rfl, by norm_num⟩)

/-- C4: project creation always yields the 13 standard main stages first,
with orders 1..13 and `is_checkpoint` exactly on the five canonical
checkpoint stages (Электрика = electrical, Сантехника = plumbing,
Плитка = tiling, Шпаклёвка = skim-coat, Финальная приёмка = final
acceptance); and for the i-th selected custom item (0-based) it appends 5
parallel stages (`is_parallel = true`) at positions 13 + 5·i + j with
orders 100 + 10·i + j and names `<item label> → <sub-step>` for the five
sub-steps measure, contract & prepayment, production, delivery,
installation. -/
theorem project_stage_defs_spec (cs : List String) :
    ((project_stage_defs cs).take 13 = STANDARD_STAGES) ∧
    (STANDARD_STAGES.map StageDef.order =
      [1, 2, 3, 4, 5, 6, 7, 8, 9, 10, 11, 12, 13]) ∧
    (∀ s ∈ STANDARD_STAGES,
      (s.is_checkpoint = true ↔
        s.name ∈ ["Электрика", "Сантехника", "Плитка", "Шпаклёвка", "Финальная приёмка"]) ∧
      s.is_parallel = false) ∧
    ((project_stage_defs cs).length = 13 + 5 * cs.length) ∧
    (∀ i j, i < cs.length → j < 5 →
      (project_stage_defs cs)[13 + (5 * i + j)]? =
        some ⟨custom_item_label (cs.getD i "") ++ " → " ++ CUSTOM_ITEM_SUBSTAGES.getD j "",
              100 + 10 * i + j, false, true⟩) := by
  refine ⟨List.take_left' rfl, rfl, by decide, ?_, ?_⟩
  · rw [project_stage_defs, List.length_append]
    cases cs with
    | nil => rfl
    | cons c rest =>
      rw [if_neg (by simp), build_parallel_stages,
        build_parallel_stages_aux_length]
      rfl
  · intro i j hi hj
    have hcs : cs.isEmpty = false := by
      cases cs with
      | nil => exact absurd hi (Nat.not_lt_zero i)
      | cons c rest => rfl
    rw [project_stage_defs, if_neg (by simp [hcs]),
      List.getElem?_append_right (by simp [STANDARD_STAGES])]
    have hlen : (STANDARD_STAGES : List StageDef).length = 13 := rfl
    rw [hlen]
    have hidx : 13 + (5 * i + j) - 13 = 5 * i + j := by omega
    rw [hidx, build_parallel_stages, build_parallel_stages_aux_getElem 100 cs 0 i j hi hj]
    have harith : (0 + i) * 10 = 10 * i := by omega
    rw [harith]

/-- Witness for C4 at a concrete input: with custom items kitchen and
walk-in closet selected, position 13 + 5·1 + 2 holds the production stage
of the walk-in closet with order 112. -/
theorem project_stage_defs_spec_witness :
    (project_stage_defs ["kitchen", "walkin"])[13 + (5 * 1 + 2)]? =
      some ⟨custom_item_label ((["kitchen", "walkin"] : List String).getD 1 "") ++ " → " ++
            CUSTOM_ITEM_SUBSTAGES.getD 2 "", 100 + 10 * 1 + 2, false, true⟩ :=
  (project_stage_defs_spec ["kitchen", "walkin"]).2.2.2.2 1 2 (by decide) (by decide)

/-- C9 (code bug): the status-update job prompts a stage whose last
activity is *now* — the idle-days cutoff is computed by
`get_stages_needing_status_update` but never applied in its query, so a
stage with activity within the last 3 days is still prompted, contrary to
the claim and to the function's own docstring. -/
theorem status_update_prompts_fresh_stage :
    check_status_updates [freshStage] 1000 = [(1, 9)] ∧
    1000 - freshStage.updated_at < 3 := by decide

/-- C1 (modelled from the spec): the tenant-scoped project listing only
returns projects of the requested tenant. -/
theorem get_user_projects_tenant_isolation (db : TenantDb) (u t : Nat)
    (p : TProject) (hp : p ∈ get_user_projects db u t) :
    p.tenant_id = t := by
  have h := List.of_mem_filter hp
  simp only [Bool.and_eq_true, beq_iff_eq] at h
  exact h.1.2

/-- Witness for C1: in the two-tenant sample database, project 1 is
listed for user 5 under tenant 7, and its tenant id is 7. -/
theorem get_user_projects_tenant_isolation_witness :
    (⟨1, 7, true⟩ : TProject).tenant_id = 7 :=
  get_user_projects_tenant_isolation sampleTenantDb 5 7 ⟨1, 7, true⟩ (by decide)

/-- C2 (code bug): an undirected group text (no command, no mention, not
a reply, no matching pattern) is dropped by the mention gate, which
returns `None` without invoking the handler chain — so no reply is sent,
but, contrary to the claim and to `store_text_message`'s own docstring
(which expects `gate_silent=True` to be set by the middleware), no
Message row and no Embedding row are created either, although a project
(id 3) resolves for the chat. -/
theorem undirected_group_text_dropped_not_stored :
    mention_gate true 42 "renovabot" [] c2_message = .drop ∧
    dispatch_group_text true 42 "renovabot" [] true c2_message (some 5) (some 3)
      "-100500" "77" ⟨[], []⟩ = (⟨[], []⟩, false) :=
  ⟨rfl, rfl⟩

/-- C6 counterexample: ingesting the identical telegram message (platform
message id "77") twice yields two Message rows and two Embedding rows —
the second ingest does change the stored sets. -/
theorem repeated_ingest_creates_new_rows :
    ¬ ((ingest_once (ingest_once ⟨[], []⟩)).messages =
         (ingest_once ⟨[], []⟩).messages ∧
       (ingest_once (ingest_once ⟨[], []⟩)).embeddings =
         (ingest_once ⟨[], []⟩).embeddings) ∧
    (ingest_once ⟨[], []⟩).messages.length = 1 ∧
    (ingest_once (ingest_once ⟨[], []⟩)).messages.length = 2 ∧
    (ingest_once ⟨[], []⟩).embeddings.length = 1 ∧
    (ingest_once (ingest_once ⟨[], []⟩)).embeddings.length = 2 := by
  decide

/-- C6 amended: ingest is *not* idempotent — every call to the ingest
path appends exactly one fresh Message row, and appends one Embedding row
exactly when AI is configured, the project id is truthy and the canonical
text is non-blank, regardless of any identical
`(platform, platform_message_id)` row already stored. -/
theorem store_and_embed_always_appends (ai : Bool) (st : Store)
    (pid uid : Option Nat) (chat : String) (mid : Option String)
    (raw tr : Option String) :
    (store_and_embed_message ai st pid uid chat mid raw tr).messages =
      st.messages ++ [⟨pid, uid, "telegram", chat, mid, raw, tr⟩] ∧
    (store_and_embed_message ai st pid uid chat mid raw tr).embeddings =
      st.embeddings ++
        (match pid, build_message_text raw tr with
         | some p, some c =>
           if (p != 0) && (c != "") then
             if ai && !(py_strip c == "") then [⟨p, c⟩] else []
           else []
         | some _, none => []
         | none, _ => []) := by
  rcases ai with _ | _ <;>
  rcases pid with _ | p <;>
  rcases hb : build_message_text raw tr with _ | c <;>
    simp [store_and_embed_message, create_message, embed_and_store, hb] <;>
    split <;> (try simp_all) <;> (try (split <;> simp_all))

/-- C3 counterexample: `get_next_stage` has no `is_parallel` filter, so
approving the completed final checkpoint (order 13) moves the *parallel*
furniture stage (order 100) to `in_progress`, although the claim says only
a non-parallel next stage is advanced (here there is none, so under the
claim no stage would change). -/
theorem checkpoint_approval_advances_parallel_stage :
    on_checkpoint_approve c3_stages 1 =
      [⟨1, 13, .completed, true, false⟩, ⟨2, 100, .in_progress, false, true⟩] ∧
    ¬ (∀ t ∈ on_checkpoint_approve c3_stages 1,
        t.status = StageStatus.in_progress →
        (∀ t0 ∈ c3_stages, t0.id = t.id → t0.status ≠ StageStatus.in_progress) →
        t.is_parallel = false) := by
  constructor
  · decide
  · decide

/-- C3 (amended): completing a checkpoint stage only marks it completed —
no other row changes until the owner acts; completing a non-checkpoint
stage auto-advances the stage with the least strictly-greater `order`
(parallel or not) to `in_progress`; on approval the stage with the least
strictly-greater `order` — parallel or not — becomes `in_progress`; on
rejection the completed stage becomes `delayed`; and `set_status` leaves
every row with a different id untouched. -/
theorem stage_completion_and_checkpoint_flow (stages : List MStage)
    (sid : Nat) (s : MStage) (hfind : find_stage stages sid = some s) :
    (s.is_checkpoint = true →
      on_stage_complete stages sid = set_status stages s.id .completed) ∧
    (s.is_checkpoint = false →
      on_stage_complete stages sid =
        (match get_next_stage (set_status stages s.id .completed) s with
         | some nxt =>
           set_status (set_status stages s.id .completed) nxt.id .in_progress
         | none => set_status stages s.id .completed)) ∧
    (∀ n, get_next_stage stages s = some n →
      on_checkpoint_approve stages sid = set_status stages n.id .in_progress ∧
      n ∈ stages ∧ s.order < n.order ∧
      ∀ u ∈ stages, s.order < u.order → n.order ≤ u.order) ∧
    (get_next_stage stages s = none →
      on_checkpoint_approve stages sid = stages) ∧
    (on_checkpoint_reject stages sid = set_status stages s.id .delayed) ∧
    (∀ sid2 st, sid2 ≠ s.id →
      find_stage (set_status stages s.id st) sid2 = find_stage stages sid2) := by
  refine ⟨?_, ?_, ?_, ?_, ?_, ?_⟩
  · intro hc
    simp [on_stage_complete, hfind, hc]
  · intro hc
    simp [on_stage_complete, hfind, hc]
  · intro n hn
    obtain ⟨h1, h2, h3⟩ := get_next_stage_spec stages s n hn
    refine ⟨?_, h1, h2, h3⟩
    simp [on_checkpoint_approve, hfind, hn]
  · intro hn
    simp [on_checkpoint_approve, hfind, hn]
  · simp [on_checkpoint_reject, hfind]
  · intro sid2 st h2
    exact find_stage_set_status_ne stages s.id sid2 st h2

/-- Witness for C3 at a concrete input: rejecting the completed checkpoint
of `c3_stages` reverts it to `delayed`. -/
theorem stage_flow_witness :
    on_checkpoint_reject c3_stages 1 =
      set_status c3_stages 1 StageStatus.delayed := by
  have h := stage_completion_and_checkpoint_flow c3_stages 1
    ⟨1, 13, .completed, true, false⟩ (by decide)
  exact h.2.2.2.2.1

/-! ## Lemmas about the RRF fusion loop -/

theorem updateAll_nil (arm : Arm) (w : ℚ) (r0 : Nat) (y : FusedResult) :
    updateAll arm w r0 [] y = y := rfl

theorem updateAll_cons_of_eq (arm : Arm) (w : ℚ) (r0 : Nat) (h : SearchHit)
    (t : List SearchHit) (y : FusedResult) (hy : y.id = h.id) :
    updateAll arm w r0 (h :: t) y =
      ⟨y.id, y.content, y.score + w / (60 + (r0 : ℚ) + 1), y.sources ++ [arm]⟩ := by
  rw [updateAll, List.findIdx?_cons, if_pos (by simp [hy])]
  norm_num

theorem updateAll_cons_of_ne (arm : Arm) (w : ℚ) (r0 : Nat) (h : SearchHit)
    (t : List SearchHit) (y : FusedResult) (hy : y.id ≠ h.id) :
    updateAll arm w r0 (h :: t) y = updateAll arm w (r0 + 1) t y := by
  rw [updateAll, List.findIdx?_cons, if_neg (by simp [Ne.symm hy]),
    List.findIdx?_succ, updateAll]
  cases hfi : t.findIdx? (fun x => x.id == y.id) with
  | none => rfl
  | some j =>
    simp only [Option.map_some']
    rw [show r0 + (j + 1) = r0 + 1 + j from by omega]

theorem updateAll_bumpIf (arm : Arm) (w : ℚ) (r0 : Nat) (h : SearchHit)
    (t : List SearchHit) (y : FusedResult)
    (hht : ∀ x ∈ t, x.id ≠ h.id) :
    updateAll arm w (r0 + 1) t (bumpIf arm w r0 h.id y) =
      updateAll arm w r0 (h :: t) y := by
  by_cases hy : y.id = h.id
  · rw [bumpIf, if_pos (by simp [hy]), updateAll_cons_of_eq arm w r0 h t y hy]
    rw [updateAll, List.findIdx?_eq_none_iff.mpr (by
      intro x hx
      simp [hy, hht x hx])]
  · rw [bumpIf, if_neg (by simp [hy]), updateAll_cons_of_ne arm w r0 h t y hy]

theorem enumFrom_shift {α : Type} (l : List α) :
    ∀ n : Nat, l.enumFrom (n + 1) = (l.enumFrom n).map (fun p => (p.1 + 1, p.2)) := by
  induction l with
  | nil => intro n; rfl
  | cons a t ih =>
    intro n
    simp only [List.enumFrom_cons, List.map_cons, ih (n + 1)]

theorem newItems_cons (arm : Arm) (w : ℚ) (r0 : Nat) (h : SearchHit)
    (t : List SearchHit) (ids : List Nat) :
    newItems arm w r0 (h :: t) ids =
      (if ids.contains h.id then []
       else [⟨h.id, h.content, w / (60 + (r0 : ℚ) + 1), [arm]⟩]) ++
      newItems arm w (r0 + 1) t ids := by
  rw [newItems, List.enum_cons]
  have hshift : t.enumFrom 1 = t.enum.map (fun p => (p.1 + 1, p.2)) := by
    have := enumFrom_shift t 0
    simpa [List.enum] using this
  rw [hshift]
  by_cases hc : h.id ∈ ids
  · have hcb : ids.contains h.id = true := by simpa using hc
    rw [List.filter_cons_of_neg (by simp [hc]), if_pos hcb, List.nil_append,
      newItems, List.filter_map, List.map_map]
    congr 1
    funext p
    simp only [Function.comp_apply]
    rw [show r0 + (p.1 + 1) = r0 + 1 + p.1 from by omega]
  · have hcb : ¬ ids.contains h.id = true := by simpa using hc
    have hfun : ((fun p => (⟨p.2.id, p.2.content,
          w / (60 + ((r0 + p.1 : Nat) : ℚ) + 1), [arm]⟩ : FusedResult)) ∘
            (fun p : Nat × SearchHit => (p.1 + 1, p.2))) =
        fun p => (⟨p.2.id, p.2.content,
          w / (60 + ((r0 + 1 + p.1 : Nat) : ℚ) + 1), [arm]⟩ : FusedResult) := by
      funext p
      simp only [Function.comp_apply]
      rw [show r0 + (p.1 + 1) = r0 + 1 + p.1 from by omega]
    rw [List.filter_cons_of_pos (by simp [hc]), if_neg hcb, List.map_cons,
      List.singleton_append, newItems, List.filter_map, List.map_map, hfun]
    rfl

theorem newItems_congr_ids (arm : Arm) (w : ℚ) (r0 : Nat)
    (t : List SearchHit) (ids1 ids2 : List Nat)
    (h : ∀ x ∈ t, ids1.contains x.id = ids2.contains x.id) :
    newItems arm w r0 t ids1 = newItems arm w r0 t ids2 := by
  rw [newItems, newItems]
  congr 1
  apply List.filter_congr
  intro p hp
  have hpt : p.2 ∈ t := by
    rcases p with ⟨i, x⟩
    have hm := List.mem_enumFrom (by simpa [List.enum] using hp)
    rcases hm with ⟨_, hlt, hx⟩
    rw [hx]
    exact List.getElem_mem _
  rw [h p.2 hpt]

theorem bumpIf_id (arm : Arm) (w : ℚ) (r0 : Nat) (hid : Nat) (y : FusedResult) :
    (bumpIf arm w r0 hid y).id = y.id := by
  rw [bumpIf]
  split <;> rfl

theorem addArmHits_eq (arm : Arm) (w : ℚ) (hits : List SearchHit) :
    ∀ (r0 : Nat) (merged : List FusedResult),
      (hits.map SearchHit.id).Nodup →
      addArmHits arm w r0 hits merged =
        merged.map (updateAll arm w r0 hits) ++
          newItems arm w r0 hits (merged.map FusedResult.id) := by
  induction hits with
  | nil =>
    intro r0 merged _
    simp only [addArmHits, newItems, List.enum_nil, List.filter_nil,
      List.map_nil, List.append_nil]
    conv_lhs => rw [← List.map_id merged]
    apply List.map_congr_left
    intro y _
    rfl
  | cons h t ih =>
    intro r0 merged hnd
    rw [List.map_cons] at hnd
    have hnd2 := List.nodup_cons.mp hnd
    have hhid : h.id ∉ t.map SearchHit.id := hnd2.1
    have hndt : (t.map SearchHit.id).Nodup := hnd2.2
    have hta : ∀ x ∈ t, x.id ≠ h.id := by
      intro x hx hxe
      exact hhid (hxe ▸ List.mem_map_of_mem SearchHit.id hx)
    simp only [addArmHits]
    by_cases hmem : merged.any (fun r => r.id == h.id) = true
    · rw [rrfUpdate, if_pos hmem, ih (r0 + 1) _ hndt]
      have hids : (merged.map (bumpIf arm w r0 h.id)).map FusedResult.id =
          merged.map FusedResult.id := by
        rw [List.map_map]
        apply List.map_congr_left
        intro y _
        exact bumpIf_id arm w r0 h.id y
      have hcont : (merged.map FusedResult.id).contains h.id = true := by
        simp only [List.any_eq_true] at hmem
        rcases hmem with ⟨r, hr, hrid⟩
        have : h.id ∈ merged.map FusedResult.id := by
          have : r.id = h.id := by simpa using hrid
          exact this ▸ List.mem_map_of_mem FusedResult.id hr
        simpa using this
      rw [hids, List.map_map, newItems_cons, if_pos hcont, List.nil_append]
      congr 1
      apply List.map_congr_left
      intro y _
      exact updateAll_bumpIf arm w r0 h t y hta
    · rw [rrfUpdate, if_neg hmem, ih (r0 + 1) _ hndt]
      have hnotin : h.id ∉ merged.map FusedResult.id := by
        intro hin
        rcases List.mem_map.mp hin with ⟨r, hr, hrid⟩
        exact hmem (List.any_eq_true.mpr ⟨r, hr, by simpa using hrid⟩)
      have hcont : (merged.map FusedResult.id).contains h.id = false := by
        simpa using hnotin
      rw [newItems_cons, if_neg (by simpa using hnotin), List.map_append]
      have hupd_new : updateAll arm w (r0 + 1) t
          (⟨h.id, h.content, w / (60 + (r0 : ℚ) + 1), [arm]⟩ : FusedResult) =
          ⟨h.id, h.content, w / (60 + (r0 : ℚ) + 1), [arm]⟩ := by
        rw [updateAll, List.findIdx?_eq_none_iff.mpr (by
          intro x hx
          simp [hta x hx])]
      have hids2 : (merged ++
          [(⟨h.id, h.content, w / (60 + (r0 : ℚ) + 1), [arm]⟩ : FusedResult)]).map
            FusedResult.id = merged.map FusedResult.id ++ [h.id] := by
        simp
      rw [hids2]
      have hcongr : newItems arm w (r0 + 1) t (merged.map FusedResult.id ++ [h.id]) =
          newItems arm w (r0 + 1) t (merged.map FusedResult.id) := by
        apply newItems_congr_ids
        intro x hx
        simp [hta x hx]
      rw [hcongr]
      have hmap : merged.map (updateAll arm w (r0 + 1) t) =
          merged.map (updateAll arm w r0 (h :: t)) := by
        apply List.map_congr_left
        intro y hy
        have hyne : y.id ≠ h.id := by
          intro hye
          exact hmem (List.any_eq_true.mpr ⟨y, hy, by simpa using hye⟩)
        exact (updateAll_cons_of_ne arm w r0 h t y hyne).symm
      rw [List.map_singleton, hupd_new, hmap, List.append_assoc,
        List.singleton_append]

theorem updateAll_id (arm : Arm) (w : ℚ) (r0 : Nat) (hits : List SearchHit)
    (y : FusedResult) : (updateAll arm w r0 hits y).id = y.id := by
  rw [updateAll]
  cases hits.findIdx? (fun h => h.id == y.id) <;> rfl

theorem addArmHits_nil_merged (arm : Arm) (w : ℚ) (hits : List SearchHit)
    (hnd : (hits.map SearchHit.id).Nodup) :
    addArmHits arm w 0 hits [] = armBase arm w hits := by
  rw [addArmHits_eq arm w hits 0 [] hnd]
  simp only [List.map_nil, List.nil_append, newItems, armBase]
  have hfilter : hits.enum.filter
      (fun p => !(([] : List Nat).contains p.2.id)) = hits.enum := by
    apply List.filter_eq_self.mpr
    intro p _
    simp
  rw [hfilter]
  apply List.map_congr_left
  intro p _
  simp

theorem armBase_ids (arm : Arm) (w : ℚ) (hits : List SearchHit) :
    (armBase arm w hits).map FusedResult.id = hits.map SearchHit.id := by
  rw [armBase, List.map_map]
  have : (FusedResult.id ∘ fun p : Nat × SearchHit =>
      (⟨p.2.id, p.2.content, w / (60 + (p.1 : ℚ) + 1), [arm]⟩ : FusedResult)) =
      (SearchHit.id ∘ Prod.snd) := rfl
  rw [this, ← List.map_map, List.enum_map_snd]

theorem newItems_ids (arm : Arm) (w : ℚ) (r0 : Nat) (hits : List SearchHit)
    (ids : List Nat) :
    (newItems arm w r0 hits ids).map FusedResult.id =
      (hits.map SearchHit.id).filter (fun i => !(ids.contains i)) := by
  rw [newItems, List.map_map]
  have h1 : (FusedResult.id ∘ fun p : Nat × SearchHit =>
      (⟨p.2.id, p.2.content, w / (60 + ((r0 + p.1 : Nat) : ℚ) + 1),
        [arm]⟩ : FusedResult)) = (fun p : Nat × SearchHit => p.2.id) := rfl
  have h2 : (fun p : Nat × SearchHit => !(ids.contains p.2.id)) =
      ((fun i => !(ids.contains i)) ∘ (fun p : Nat × SearchHit => p.2.id)) := rfl
  rw [h1, h2, ← List.filter_map]
  have h3 : (hits.enum.map (fun p : Nat × SearchHit => p.2.id)) =
      hits.map SearchHit.id := by
    have : (fun p : Nat × SearchHit => p.2.id) = (SearchHit.id ∘ Prod.snd) := rfl
    rw [this, ← List.map_map, List.enum_map_snd]
  rw [h3]

theorem hybrid_merged_eq (vec fts : List SearchHit) (vw fw : ℚ)
    (hv : (vec.map SearchHit.id).Nodup) (hf : (fts.map SearchHit.id).Nodup) :
    hybrid_merged vec fts vw fw =
      (armBase Arm.vector vw vec).map (updateAll Arm.fts fw 0 fts) ++
        newItems Arm.fts fw 0 fts (vec.map SearchHit.id) := by
  rw [hybrid_merged, addArmHits_nil_merged Arm.vector vw vec hv,
    addArmHits_eq Arm.fts fw fts 0 _ hf, armBase_ids]

theorem hybrid_merged_ids (vec fts : List SearchHit) (vw fw : ℚ)
    (hv : (vec.map SearchHit.id).Nodup) (hf : (fts.map SearchHit.id).Nodup) :
    (hybrid_merged vec fts vw fw).map FusedResult.id =
      vec.map SearchHit.id ++
        (fts.map SearchHit.id).filter
          (fun i => !((vec.map SearchHit.id).contains i)) := by
  rw [hybrid_merged_eq vec fts vw fw hv hf, List.map_append, newItems_ids,
    List.map_map]
  have : ((armBase Arm.vector vw vec).map
      (FusedResult.id ∘ updateAll Arm.fts fw 0 fts)) =
      (armBase Arm.vector vw vec).map FusedResult.id := by
    apply List.map_congr_left
    intro y _
    exact updateAll_id Arm.fts fw 0 fts y
  rw [this, armBase_ids]

theorem findIdx?_of_getElem (l : List SearchHit)
    (hnd : (l.map SearchHit.id).Nodup) (k : Nat) (hk : k < l.length) :
    l.findIdx? (fun h => h.id == (l[k]).id) = some k := by
  induction l generalizing k with
  | nil => exact absurd hk (by simp)
  | cons a t ih =>
    rw [List.map_cons] at hnd
    have hnd2 := List.nodup_cons.mp hnd
    cases k with
    | zero => rw [List.findIdx?_cons, if_pos (by simp)]
    | succ k2 =>
      have hk2 : k2 < t.length := by simpa using Nat.lt_of_succ_lt_succ hk
      have hne : a.id ≠ t[k2].id := by
        have hmem : t[k2].id ∈ t.map SearchHit.id :=
          List.mem_map_of_mem SearchHit.id (List.getElem_mem hk2)
        exact fun he => hnd2.1 (he ▸ hmem)
      rw [List.findIdx?_cons, if_neg (by simpa using hne), List.findIdx?_succ]
      have : (a :: t)[k2 + 1] = t[k2] := rfl
      rw [this, ih hnd2.2 k2 hk2]
      rfl

theorem any_id_iff_mem (l : List SearchHit) (i : Nat) :
    l.any (fun h => h.id == i) = true ↔ i ∈ l.map SearchHit.id := by
  rw [List.any_eq_true]
  simp only [List.mem_map, beq_iff_eq]

theorem findIdx?_none_of_not_mem (l : List SearchHit) (i : Nat)
    (h : i ∉ l.map SearchHit.id) :
    l.findIdx? (fun hh => hh.id == i) = none := by
  rw [List.findIdx?_eq_none_iff]
  intro x hx
  have : x.id ≠ i := fun he => h (he ▸ List.mem_map_of_mem SearchHit.id hx)
  simpa using this

theorem findIdx?_ne_none_of_any (l : List SearchHit) (i : Nat)
    (h : l.any (fun hh => hh.id == i) = true) :
    l.findIdx? (fun hh => hh.id == i) ≠ none := by
  intro hnone
  rw [List.findIdx?_eq_none_iff] at hnone
  rcases List.any_eq_true.mp h with ⟨x, hx, hxi⟩
  rw [hnone x hx] at hxi
  exact Bool.false_ne_true hxi

theorem any_of_findIdx?_some (l : List SearchHit) (i : Nat) (j : Nat)
    (h : l.findIdx? (fun hh => hh.id == i) = some j) :
    l.any (fun hh => hh.id == i) = true := by
  cases hq : l.any (fun hh => hh.id == i) with
  | true => rfl
  | false =>
    exfalso
    rw [List.any_eq_false] at hq
    have hnone : l.findIdx? (fun hh => hh.id == i) = none := by
      rw [List.findIdx?_eq_none_iff]
      intro x hx
      cases hpx : (x.id == i) with
      | false => rfl
      | true => exact absurd hpx (hq x hx)
    rw [hnone] at h
    exact Option.noConfusion h

theorem hybrid_merged_elem (vec fts : List SearchHit) (vw fw : ℚ)
    (hv : (vec.map SearchHit.id).Nodup) (hf : (fts.map SearchHit.id).Nodup)
    (r : FusedResult) (hr : r ∈ hybrid_merged vec fts vw fw) :
    r.score = rrfContrib vw vec r.id + rrfContrib fw fts r.id ∧
    r.sources = armsOf vec fts r.id := by
  rw [hybrid_merged_eq vec fts vw fw hv hf] at hr
  rcases List.mem_append.mp hr with hr | hr
  · rcases List.mem_map.mp hr with ⟨y, hy, rfl⟩
    rw [armBase] at hy
    rcases List.mem_map.mp hy with ⟨p, hp, rfl⟩
    rcases p with ⟨k, x⟩
    obtain ⟨-, hklt, hx⟩ := List.mem_enumFrom (by simpa [List.enum] using hp)
    have hk : k < vec.length := by simpa using hklt
    have hxid : x.id ∈ vec.map SearchHit.id := by
      rw [hx]
      exact List.mem_map_of_mem SearchHit.id (List.getElem_mem hk)
    have hfidv : vec.findIdx? (fun h => h.id == x.id) = some k := by
      conv_lhs => rw [hx]
      exact findIdx?_of_getElem vec hv k hk
    cases hfi : fts.findIdx? (fun hh => hh.id == x.id) with
    | some j =>
      have hupd : updateAll Arm.fts fw 0 fts
          (⟨x.id, x.content, vw / (60 + (k : ℚ) + 1), [Arm.vector]⟩ : FusedResult) =
          ⟨x.id, x.content,
           vw / (60 + (k : ℚ) + 1) + fw / (60 + ((0 + j : Nat) : ℚ) + 1),
           [Arm.vector] ++ [Arm.fts]⟩ := by
        rw [updateAll, hfi]
      rw [hupd]
      constructor
      · show vw / (60 + (k : ℚ) + 1) + fw / (60 + ((0 + j : Nat) : ℚ) + 1) =
          rrfContrib vw vec x.id + rrfContrib fw fts x.id
        rw [rrfContrib, hfidv, rrfContrib, hfi]
        norm_num
      · show [Arm.vector] ++ [Arm.fts] = armsOf vec fts x.id
        rw [armsOf, if_pos ((any_id_iff_mem vec x.id).mpr hxid),
          if_pos (any_of_findIdx?_some fts x.id j hfi)]
    | none =>
      have hupd : updateAll Arm.fts fw 0 fts
          (⟨x.id, x.content, vw / (60 + (k : ℚ) + 1), [Arm.vector]⟩ : FusedResult) =
          ⟨x.id, x.content, vw / (60 + (k : ℚ) + 1), [Arm.vector]⟩ := by
        rw [updateAll, hfi]
      rw [hupd]
      constructor
      · show vw / (60 + (k : ℚ) + 1) =
          rrfContrib vw vec x.id + rrfContrib fw fts x.id
        rw [rrfContrib, hfidv, rrfContrib, hfi, add_zero]
      · show [Arm.vector] = armsOf vec fts x.id
        rw [armsOf, if_pos ((any_id_iff_mem vec x.id).mpr hxid), if_neg ?_]
        · rw [List.append_nil]
        · intro hany
          exact findIdx?_ne_none_of_any fts x.id hany hfi
  · rw [newItems] at hr
    rcases List.mem_map.mp hr with ⟨p, hpf, rfl⟩
    rcases List.mem_filter.mp hpf with ⟨hp, hpcond⟩
    rcases p with ⟨k, x⟩
    obtain ⟨-, hklt, hx⟩ := List.mem_enumFrom (by simpa [List.enum] using hp)
    have hk : k < fts.length := by simpa using hklt
    have hxnot : x.id ∉ vec.map SearchHit.id := by
      intro hmem
      have : (vec.map SearchHit.id).contains x.id = true := by simpa using hmem
      rw [this] at hpcond
      exact Bool.false_ne_true hpcond
    have hfidf : fts.findIdx? (fun h => h.id == x.id) = some k := by
      conv_lhs => rw [hx]
      exact findIdx?_of_getElem fts hf k hk
    constructor
    · show fw / (60 + ((0 + k : Nat) : ℚ) + 1) =
        rrfContrib vw vec x.id + rrfContrib fw fts x.id
      rw [rrfContrib, findIdx?_none_of_not_mem vec x.id hxnot, rrfContrib, hfidf,
        zero_add]
      norm_num
    · show [Arm.fts] = armsOf vec fts x.id
      have hvany : ¬ vec.any (fun h => h.id == x.id) = true := fun hany =>
        hxnot ((any_id_iff_mem vec x.id).mp hany)
      have hfany : fts.any (fun h => h.id == x.id) = true :=
        any_of_findIdx?_some fts x.id k hfidf
      rw [armsOf, if_neg hvany, if_pos hfany, List.nil_append]

/-- C7: hybrid search fetches `top_k * 2` candidates from each arm (this
is how `search_similar`/`search_fulltext` are invoked in the definition of
`search_hybrid`), assigns every returned candidate the fused score
`Σ_{hitting arms} weight_arm / (60 + rank_arm + 1)`, annotates it with
exactly the arms that returned it, and returns at most `top_k` results
sorted by descending fused score. -/
theorem search_hybrid_spec (vecRanked ftsRanked : List SearchHit)
    (top_k : Nat) (vw fw : ℚ)
    (hv : (vecRanked.map SearchHit.id).Nodup)
    (hf : (ftsRanked.map SearchHit.id).Nodup) :
    (search_hybrid vecRanked ftsRanked top_k vw fw).length ≤ top_k ∧
    (search_hybrid vecRanked ftsRanked top_k vw fw).Pairwise
      (fun a b => b.score ≤ a.score) ∧
    ∀ r ∈ search_hybrid vecRanked ftsRanked top_k vw fw,
      r.score = rrfContrib vw (search_similar vecRanked (top_k * 2)) r.id +
                rrfContrib fw (search_fulltext ftsRanked (top_k * 2)) r.id ∧
      r.sources = armsOf (search_similar vecRanked (top_k * 2))
                         (search_fulltext ftsRanked (top_k * 2)) r.id := by
  have hvt : ((vecRanked.take (top_k * 2)).map SearchHit.id).Nodup := by
    rw [List.map_take]
    exact List.Nodup.sublist (List.take_sublist _ _) hv
  have hft : ((ftsRanked.take (top_k * 2)).map SearchHit.id).Nodup := by
    rw [List.map_take]
    exact List.Nodup.sublist (List.take_sublist _ _) hf
  refine ⟨?_, ?_, ?_⟩
  · simp only [search_hybrid]
    exact List.length_take_le _ _
  · simp only [search_hybrid]
    have hpw := @stable_sort_pairwise FusedResult
      (fun a b : FusedResult => decide (b.score ≤ a.score))
      (fun x y => by
        rcases le_total y.score x.score with h | h
        · exact Or.inl (by simpa using h)
        · exact Or.inr (by simpa using h))
      (fun x y z hxy hyz => by
        simp only [decide_eq_true_eq] at hxy hyz ⊢
        exact le_trans hyz hxy)
      (hybrid_merged (search_similar vecRanked (top_k * 2))
        (search_fulltext ftsRanked (top_k * 2)) vw fw)
    have hpw2 := hpw.imp (fun h => of_decide_eq_true h)
    exact hpw2.sublist (List.take_sublist _ _)
  · intro r hr
    simp only [search_hybrid] at hr
    have h1 := List.mem_of_mem_take hr
    have hrm : r ∈ hybrid_merged (search_similar vecRanked (top_k * 2))
        (search_fulltext ftsRanked (top_k * 2)) vw fw :=
      (stable_sort_perm _ _).mem_iff.mp h1
    exact hybrid_merged_elem _ _ vw fw hvt hft r hrm

/-- Witness for C7 at a concrete input: two vector candidates and one
full-text candidate, `top_k = 2`, default weights. -/
theorem search_hybrid_spec_witness :
    (search_hybrid [⟨1, "плитка"⟩, ⟨2, "кухня"⟩] [⟨2, "кухня"⟩] 2
      (3/5) (2/5)).length ≤ 2 :=
  (search_hybrid_spec [⟨1, "плитка"⟩, ⟨2, "кухня"⟩] [⟨2, "кухня"⟩] 2
    (3/5) (2/5) (by decide) (by decide)).1

/-! ## Lemmas for the zero-weight behaviour of hybrid search -/

theorem rrfContrib_zero (l : List SearchHit) (i : Nat) : rrfContrib 0 l i = 0 := by
  rw [rrfContrib]
  cases l.findIdx? (fun h => h.id == i) with
  | none => rfl
  | some j => simp

theorem perm_sorted_strict_decomp (A B : List FusedResult) :
    ∀ m : List FusedResult,
      m.Perm (A ++ B) →
      m.Pairwise (fun a b => b.score ≤ a.score) →
      A.Pairwise (fun a b => b.score < a.score) →
      (∀ a ∈ A, ∀ b ∈ B, b.score < a.score) →
      ∃ B2, m = A ++ B2 ∧ B2.Perm B := by
  induction A with
  | nil =>
    intro m hperm _ _ _
    exact ⟨m, rfl, by simpa using hperm⟩
  | cons a A2 ih =>
    intro m hperm hm hA hAB
    cases m with
    | nil =>
      exfalso
      have := hperm.length_eq
      simp at this
    | cons x m2 =>
      have hxa : x = a := by
        have hxmem : x ∈ a :: (A2 ++ B) := by
          have : x ∈ x :: m2 := List.mem_cons_self x m2
          simpa using hperm.mem_iff.mp this
        rcases List.mem_cons.mp hxmem with h | h
        · exact h
        · exfalso
          have hxlt : x.score < a.score := by
            rcases List.mem_append.mp h with h2 | h2
            · exact (List.pairwise_cons.mp hA).1 x h2
            · exact hAB a (List.mem_cons_self a A2) x h2
          have hax : a ∈ x :: m2 := by
            have : a ∈ (a :: A2) ++ B := by simp
            exact hperm.mem_iff.mpr (by simpa using this)
          rcases List.mem_cons.mp hax with h3 | h3
          · rw [h3] at hxlt
            exact lt_irrefl _ hxlt
          · have hle := (List.pairwise_cons.mp hm).1 a h3
            exact absurd hxlt (not_lt.mpr hle)
      subst hxa
      have hm2 : m2.Perm (A2 ++ B) := by
        have : (x :: m2).Perm (x :: (A2 ++ B)) := by simpa using hperm
        exact this.cons_inv
      obtain ⟨B2, hB2, hpB⟩ := ih m2 hm2 (List.pairwise_cons.mp hm).2
        (List.pairwise_cons.mp hA).2
        (fun a2 ha2 b hb => hAB a2 (List.mem_cons_of_mem x ha2) b hb)
      exact ⟨B2, by rw [List.cons_append, hB2], hpB⟩

theorem filterMap_eq_map_of_isSome {α β : Type} (f : α → Option β) (d : β) :
    ∀ l : List α, (∀ a ∈ l, (f a).isSome = true) →
      l.filterMap f = l.map (fun a => (f a).getD d) := by
  intro l
  induction l with
  | nil => intro _; rfl
  | cons a t ih =>
    intro h
    have ha := h a (List.mem_cons_self a t)
    rcases Option.isSome_iff_exists.mp ha with ⟨b, hb⟩
    rw [List.filterMap_cons, hb, List.map_cons, hb,
      ih (fun x hx => h x (List.mem_cons_of_mem a hx))]
    rfl

theorem find?_eq_of_mem_of_idnodup (merged : List FusedResult)
    (hnd : (merged.map FusedResult.id).Nodup) (x : FusedResult)
    (hx : x ∈ merged) :
    merged.find? (fun r => r.id == x.id) = some x := by
  induction merged with
  | nil => exact absurd hx (List.not_mem_nil x)
  | cons m t ih =>
    rw [List.map_cons] at hnd
    have hnd2 := List.nodup_cons.mp hnd
    rcases List.mem_cons.mp hx with rfl | hxt
    · rw [List.find?_cons_of_pos _ (by simp)]
    · have hne : m.id ≠ x.id := by
        intro he
        exact hnd2.1 (he ▸ List.mem_map_of_mem FusedResult.id hxt)
      rw [List.find?_cons_of_neg _ (by simpa using hne)]
      exact ih hnd2.2 hxt

theorem updateAll_score_zero (arm : Arm) (r0 : Nat) (hits : List SearchHit)
    (y : FusedResult) : (updateAll arm 0 r0 hits y).score = y.score := by
  rw [updateAll]
  cases hits.findIdx? (fun h => h.id == y.id) with
  | none => rfl
  | some j => simp

theorem hybrid_fts_weight_zero (vecRanked ftsRanked : List SearchHit)
    (k : Nat) (vw : ℚ)
    (hv : (vecRanked.map SearchHit.id).Nodup)
    (hf : (ftsRanked.map SearchHit.id).Nodup)
    (hvw : 0 < vw) (hk : k ≤ vecRanked.length) :
    (search_hybrid vecRanked ftsRanked k vw 0).map FusedResult.id =
      (search_similar vecRanked k).map SearchHit.id := by
  have hveq : search_similar vecRanked (k * 2) = vecRanked.take (k * 2) := rfl
  have hfeq : search_fulltext ftsRanked (k * 2) = ftsRanked.take (k * 2) := rfl
  have hvt : ((search_similar vecRanked (k * 2)).map SearchHit.id).Nodup := by
    rw [hveq, List.map_take]
    exact List.Nodup.sublist (List.take_sublist _ _) hv
  have hft : ((search_fulltext ftsRanked (k * 2)).map SearchHit.id).Nodup := by
    rw [hfeq, List.map_take]
    exact List.Nodup.sublist (List.take_sublist _ _) hf
  set vec := search_similar vecRanked (k * 2) with hvec
  set fts := search_fulltext ftsRanked (k * 2) with hfts
  set A := (armBase Arm.vector vw vec).map (updateAll Arm.fts 0 0 fts) with hA
  set B := newItems Arm.fts 0 0 fts (vec.map SearchHit.id) with hB
  have hmerged : hybrid_merged vec fts vw 0 = A ++ B :=
    hybrid_merged_eq vec fts vw 0 hvt hft
  have hAlen : A.length = vec.length := by
    rw [hA, List.length_map, armBase, List.length_map, List.enum_length]
  have hA2 : A = vec.enum.map (fun p => updateAll Arm.fts 0 0 fts
      ⟨p.2.id, p.2.content, vw / (60 + (p.1 : ℚ) + 1), [Arm.vector]⟩) := by
    rw [hA, armBase, List.map_map]
    rfl
  have hAscore : ∀ i (hi : i < A.length), A[i].score = vw / (60 + (i : ℚ) + 1) := by
    intro i hi
    rw [List.getElem_of_eq hA2 hi, List.getElem_map, updateAll_score_zero,
      List.getElem_enum]
  have hApair : A.Pairwise (fun a b => b.score < a.score) := by
    rw [List.pairwise_iff_getElem]
    intro i j hi hj hij
    rw [hAscore i hi, hAscore j hj]
    have hij2 : (i : ℚ) < (j : ℚ) := by exact_mod_cast hij
    apply div_lt_div_of_pos_left hvw (by positivity) (by linarith)
  have hBscore : ∀ b ∈ B, b.score = 0 := by
    intro b hb
    rw [hB, newItems] at hb
    rcases List.mem_map.mp hb with ⟨p, _, rfl⟩
    simp
  have hABlt : ∀ a ∈ A, ∀ b ∈ B, b.score < a.score := by
    intro a ha b hb
    rw [hBscore b hb]
    rcases List.mem_iff_getElem.mp ha with ⟨i, hi, rfl⟩
    rw [hAscore i hi]
    positivity
  have hsortpw : (stable_sort (fun a b => decide (b.score ≤ a.score))
      (hybrid_merged vec fts vw 0)).Pairwise (fun a b => b.score ≤ a.score) := by
    have hpw := @stable_sort_pairwise FusedResult
      (fun a b : FusedResult => decide (b.score ≤ a.score))
      (fun x y => by
        rcases le_total y.score x.score with h | h
        · exact Or.inl (by simpa using h)
        · exact Or.inr (by simpa using h))
      (fun x y z hxy hyz => by
        simp only [decide_eq_true_eq] at hxy hyz ⊢
        exact le_trans hyz hxy)
      (hybrid_merged vec fts vw 0)
    exact hpw.imp (fun h => of_decide_eq_true h)
  obtain ⟨B2, hdecomp, -⟩ := perm_sorted_strict_decomp A B
    (stable_sort (fun a b => decide (b.score ≤ a.score))
      (hybrid_merged vec fts vw 0))
    (by rw [← hmerged]; exact stable_sort_perm _ _)
    hsortpw hApair hABlt
  have hkA : k ≤ A.length := by
    rw [hAlen]
    show k ≤ (vecRanked.take (k * 2)).length
    rw [List.length_take]
    exact le_min (by omega) hk
  have hAids : A.map FusedResult.id = vec.map SearchHit.id := by
    rw [hA, List.map_map]
    have : (FusedResult.id ∘ updateAll Arm.fts 0 0 fts) = FusedResult.id := by
      funext y
      exact updateAll_id Arm.fts 0 0 fts y
    rw [this, armBase_ids]
  simp only [search_hybrid]
  rw [hdecomp, List.take_append_of_le_length hkA, List.map_take, hAids, hveq,
    List.map_take, List.take_take, Nat.min_eq_left (by omega), ← List.map_take]
  rfl

theorem hybrid_merged_ids_nodup (vec fts : List SearchHit) (vw fw : ℚ)
    (hv : (vec.map SearchHit.id).Nodup) (hf : (fts.map SearchHit.id).Nodup) :
    ((hybrid_merged vec fts vw fw).map FusedResult.id).Nodup := by
  rw [hybrid_merged_ids vec fts vw fw hv hf]
  refine List.Nodup.append hv (hf.filter _) ?_
  intro i hi1 hi2
  have h2 := (List.mem_filter.mp hi2).2
  have h3 : i ∉ vec.map SearchHit.id := by simpa using h2
  exact h3 hi1

theorem fts_id_mem_merged (vec fts : List SearchHit) (vw fw : ℚ)
    (hv : (vec.map SearchHit.id).Nodup) (hf : (fts.map SearchHit.id).Nodup)
    (i : Nat) (hi : i ∈ fts.map SearchHit.id) :
    i ∈ (hybrid_merged vec fts vw fw).map FusedResult.id := by
  rw [hybrid_merged_ids vec fts vw fw hv hf]
  by_cases h : i ∈ vec.map SearchHit.id
  · exact List.mem_append_left _ h
  · refine List.mem_append_right _ (List.mem_filter.mpr ⟨hi, ?_⟩)
    simpa using h

theorem count_filter_eq (p : FusedResult → Bool) (M : List FusedResult)
    (x : FusedResult) :
    (M.filter p).count x = if p x = true then M.count x else 0 := by
  by_cases hpx : p x = true
  · rw [if_pos hpx, List.count_filter hpx]
  · rw [if_neg hpx, List.count_eq_zero]
    intro hmem
    exact hpx (List.mem_filter.mp hmem).2

theorem count_map_find? (M : List FusedResult)
    (hMnd : (M.map FusedResult.id).Nodup) :
    ∀ l : List SearchHit, (l.map SearchHit.id).Nodup →
      (∀ h ∈ l, h.id ∈ M.map FusedResult.id) →
      ∀ x : FusedResult,
        (l.map (fun h =>
          (M.find? (fun r => r.id == h.id)).getD ⟨0, "", 0, []⟩)).count x =
          if x ∈ M ∧ x.id ∈ l.map SearchHit.id then 1 else 0 := by
  intro l
  induction l with
  | nil =>
    intro _ _ x
    simp
  | cons h t ih =>
    intro hlnd hmem x
    rw [List.map_cons] at hlnd
    have hnd2 := List.nodup_cons.mp hlnd
    have hmemh := hmem h (List.mem_cons_self h t)
    rcases List.mem_map.mp hmemh with ⟨z, hzM, hzid⟩
    have hfz : M.find? (fun r => r.id == h.id) = some z := by
      have := find?_eq_of_mem_of_idnodup M hMnd z hzM
      rw [hzid] at this
      exact this
    have hih := ih hnd2.2 (fun g hg => hmem g (List.mem_cons_of_mem h hg)) x
    have hrhs : x.id ∈ (h :: t).map SearchHit.id ↔
        (x.id = h.id ∨ x.id ∈ t.map SearchHit.id) := by simp
    rw [List.map_cons, List.count_cons, hih, hfz]
    simp only [Option.getD_some]
    by_cases hxm : x ∈ M
    · by_cases hxh : x.id = h.id
      · have hzx : z = x := by
          have h1 := find?_eq_of_mem_of_idnodup M hMnd x hxm
          rw [hxh] at h1
          rw [h1] at hfz
          exact (Option.some_inj.mp hfz).symm
        have hxt : x.id ∉ t.map SearchHit.id := by
          rw [hxh]
          exact hnd2.1
        rw [if_neg (show ¬(x ∈ M ∧ x.id ∈ t.map SearchHit.id) from
              fun hc => hxt hc.2),
          if_pos (show x ∈ M ∧ x.id ∈ (h :: t).map SearchHit.id from
              ⟨hxm, hrhs.mpr (Or.inl hxh)⟩),
          if_pos (show (z == x) = true from by simpa using hzx)]
      · have hzx : ¬ z = x := fun he => hxh (by rw [← he, hzid])
        rw [if_neg (show ¬((z == x) = true) from by simpa using hzx)]
        by_cases hxt : x.id ∈ t.map SearchHit.id
        · rw [if_pos (show x ∈ M ∧ x.id ∈ t.map SearchHit.id from ⟨hxm, hxt⟩),
            if_pos (show x ∈ M ∧ x.id ∈ (h :: t).map SearchHit.id from
              ⟨hxm, hrhs.mpr (Or.inr hxt)⟩)]
        · rw [if_neg (show ¬(x ∈ M ∧ x.id ∈ t.map SearchHit.id) from
              fun hc => hxt hc.2),
            if_neg (show ¬(x ∈ M ∧ x.id ∈ (h :: t).map SearchHit.id) from
              fun hc => by
                rcases hrhs.mp hc.2 with hc2 | hc2
                · exact hxh hc2
                · exact hxt hc2)]
    · have hzx : ¬ z = x := fun he => hxm (he ▸ hzM)
      rw [if_neg (show ¬((z == x) = true) from by simpa using hzx),
        if_neg (show ¬(x ∈ M ∧ x.id ∈ t.map SearchHit.id) from
          fun hc => hxm hc.1),
        if_neg (show ¬(x ∈ M ∧ x.id ∈ (h :: t).map SearchHit.id) from
          fun hc => hxm hc.1)]

theorem hybrid_vec_weight_zero (vecRanked ftsRanked : List SearchHit)
    (k : Nat) (fw : ℚ)
    (hv : (vecRanked.map SearchHit.id).Nodup)
    (hf : (ftsRanked.map SearchHit.id).Nodup)
    (hfw : 0 < fw) (hk : k ≤ ftsRanked.length) :
    (search_hybrid vecRanked ftsRanked k 0 fw).map FusedResult.id =
      (search_fulltext ftsRanked k).map SearchHit.id := by
  have hvt : ((search_similar vecRanked (k * 2)).map SearchHit.id).Nodup := by
    show ((vecRanked.take (k * 2)).map SearchHit.id).Nodup
    rw [List.map_take]
    exact List.Nodup.sublist (List.take_sublist _ _) hv
  have hft : ((search_fulltext ftsRanked (k * 2)).map SearchHit.id).Nodup := by
    show ((ftsRanked.take (k * 2)).map SearchHit.id).Nodup
    rw [List.map_take]
    exact List.Nodup.sublist (List.take_sublist _ _) hf
  set vec := search_similar vecRanked (k * 2) with hvec
  set fts := search_fulltext ftsRanked (k * 2) with hfts
  set M := hybrid_merged vec fts 0 fw with hM
  have hMidnd : (M.map FusedResult.id).Nodup :=
    hybrid_merged_ids_nodup vec fts 0 fw hvt hft
  have hMnd : M.Nodup := List.Nodup.of_map FusedResult.id hMidnd
  set F : SearchHit → FusedResult := fun h =>
    (M.find? (fun r => r.id == h.id)).getD ⟨0, "", 0, []⟩ with hF
  have hFfacts : ∀ h ∈ fts, F h ∈ M ∧ (F h).id = h.id := by
    intro h hh
    have hmem := fts_id_mem_merged vec fts 0 fw hvt hft h.id
      (List.mem_map_of_mem SearchHit.id hh)
    rcases List.mem_map.mp hmem with ⟨y, hy, hyid⟩
    have hfind : M.find? (fun r => r.id == h.id) = some y := by
      have := find?_eq_of_mem_of_idnodup M hMidnd y hy
      rw [hyid] at this
      exact this
    rw [hF]
    simp only [hfind, Option.getD_some]
    exact ⟨hy, hyid⟩
  have hFscore : ∀ h ∈ fts, (F h).score = rrfContrib fw fts h.id := by
    intro h hh
    obtain ⟨hmem, hid⟩ := hFfacts h hh
    have hsc := (hybrid_merged_elem vec fts 0 fw hvt hft (F h) hmem).1
    rw [rrfContrib_zero, zero_add, hid] at hsc
    exact hsc
  set P := fts.map F with hP
  set Z := M.filter (fun r => !((fts.map SearchHit.id).contains r.id)) with hZ
  have hperm : M.Perm (P ++ Z) := by
    rw [List.perm_iff_count]
    intro x
    rw [List.count_append, hP, hF]
    rw [count_map_find? M hMidnd fts hft
      (fun h hh => fts_id_mem_merged vec fts 0 fw hvt hft h.id
        (List.mem_map_of_mem SearchHit.id hh)) x]
    rw [hZ, count_filter_eq]
    by_cases hxm : x ∈ M
    · by_cases hxf : x.id ∈ fts.map SearchHit.id
      · rw [if_pos ⟨hxm, hxf⟩,
          if_neg (show ¬((!((fts.map SearchHit.id).contains x.id)) = true) from
            by simpa using hxf),
          List.count_eq_one_of_mem hMnd hxm]
      · rw [if_neg (fun hc => hxf hc.2),
          if_pos (show (!((fts.map SearchHit.id).contains x.id)) = true from
            by simpa using hxf),
          List.count_eq_one_of_mem hMnd hxm]
    · have hc0 : M.count x = 0 := List.count_eq_zero.mpr hxm
      rw [hc0, if_neg (fun hc => hxm hc.1)]
      by_cases hxf : (!((fts.map SearchHit.id).contains x.id)) = true
      · rw [if_pos hxf]
      · rw [if_neg hxf]
  have hPlen : P.length = fts.length := by rw [hP, List.length_map]
  have hPscore : ∀ i (hi : i < P.length), P[i].score = fw / (60 + (i : ℚ) + 1) := by
    intro i hi
    have hif : i < fts.length := by rw [← hPlen]; exact hi
    have hPi : P[i] = F fts[i] := by
      rw [List.getElem_of_eq hP hi, List.getElem_map]
    rw [hPi, hFscore fts[i] (List.getElem_mem hif), rrfContrib,
      findIdx?_of_getElem fts hft i hif]
  have hPpair : P.Pairwise (fun a b => b.score < a.score) := by
    rw [List.pairwise_iff_getElem]
    intro i j hi hj hij
    rw [hPscore i hi, hPscore j hj]
    have hij2 : (i : ℚ) < (j : ℚ) := by exact_mod_cast hij
    apply div_lt_div_of_pos_left hfw (by positivity) (by linarith)
  have hZscore : ∀ z ∈ Z, z.score = 0 := by
    intro z hz
    rcases List.mem_filter.mp hz with ⟨hzM, hzcond⟩
    have hsc := (hybrid_merged_elem vec fts 0 fw hvt hft z hzM).1
    rw [rrfContrib_zero, zero_add] at hsc
    rw [hsc, rrfContrib,
      findIdx?_none_of_not_mem fts z.id (by simpa using hzcond)]
  have hPZlt : ∀ a ∈ P, ∀ b ∈ Z, b.score < a.score := by
    intro a ha b hb
    rw [hZscore b hb]
    rcases List.mem_iff_getElem.mp ha with ⟨i, hi, rfl⟩
    rw [hPscore i hi]
    positivity
  have hsortpw : (stable_sort (fun a b => decide (b.score ≤ a.score))
      M).Pairwise (fun a b => b.score ≤ a.score) := by
    have hpw := @stable_sort_pairwise FusedResult
      (fun a b : FusedResult => decide (b.score ≤ a.score))
      (fun x y => by
        rcases le_total y.score x.score with h | h
        · exact Or.inl (by simpa using h)
        · exact Or.inr (by simpa using h))
      (fun x y z hxy hyz => by
        simp only [decide_eq_true_eq] at hxy hyz ⊢
        exact le_trans hyz hxy) M
    exact hpw.imp (fun h => of_decide_eq_true h)
  obtain ⟨Z2, hdecomp, -⟩ := perm_sorted_strict_decomp P Z
    (stable_sort (fun a b => decide (b.score ≤ a.score)) M)
    ((stable_sort_perm _ _).trans hperm) hsortpw hPpair hPZlt
  have hkP : k ≤ P.length := by
    rw [hPlen]
    show k ≤ (ftsRanked.take (k * 2)).length
    rw [List.length_take]
    exact le_min (by omega) hk
  have hPids : P.map FusedResult.id = fts.map SearchHit.id := by
    rw [hP, List.map_map]
    apply List.map_congr_left
    intro h hh
    exact (hFfacts h hh).2
  simp only [search_hybrid]
  rw [hdecomp, List.take_append_of_le_length hkP, List.map_take, hPids]
  show ((ftsRanked.take (k * 2)).map SearchHit.id).take k =
    (search_fulltext ftsRanked k).map SearchHit.id
  rw [List.map_take, List.take_take, Nat.min_eq_left (by omega), ← List.map_take]
  rfl

/-- C8 counterexample: with the full-text weight set to 0 and the vector
arm returning fewer than `top_k` candidates, hybrid search still returns
the fts-only candidate (fused score 0) after the vector candidates, so
its output `[1, 2]` differs from pure vector search's `[1]`. -/
theorem search_hybrid_zero_weight_counterexample :
    ¬ ((search_hybrid [⟨1, "a"⟩] [⟨2, "b"⟩] 2 1 0).map FusedResult.id =
       (search_similar [⟨1, "a"⟩] 2).map SearchHit.id) := by
  have h1 : (search_hybrid [⟨1, "a"⟩] [⟨2, "b"⟩] 2 1 0).map FusedResult.id =
      [1, 2] := by
    norm_num [search_hybrid, search_similar, search_fulltext, hybrid_merged,
      addArmHits, rrfUpdate, stable_sort, stable_insert]
  rw [h1]
  decide

/-- C8 (amended): zeroing one arm's weight preserves the other arm's pure
ordering on the candidates that arm returned — provided the weighted arm
can fill the requested `top_k` (its ranked candidate list has at least
`top_k` entries) and its weight is positive; otherwise candidates only
the zero-weight arm returned may still trail the output with fused score
0.  Under that proviso, hybrid output ids with `fts_weight = 0` equal
pure vector search's ids, and with `vector_weight = 0` equal pure
full-text search's ids, in order. -/
theorem search_hybrid_zero_weight_orders (vecRanked ftsRanked : List SearchHit)
    (k : Nat) (vw fw : ℚ)
    (hv : (vecRanked.map SearchHit.id).Nodup)
    (hf : (ftsRanked.map SearchHit.id).Nodup) :
    (0 < vw → k ≤ vecRanked.length →
      (search_hybrid vecRanked ftsRanked k vw 0).map FusedResult.id =
        (search_similar vecRanked k).map SearchHit.id) ∧
    (0 < fw → k ≤ ftsRanked.length →
      (search_hybrid vecRanked ftsRanked k 0 fw).map FusedResult.id =
        (search_fulltext ftsRanked k).map SearchHit.id) :=
  ⟨fun h1 h2 => hybrid_fts_weight_zero vecRanked ftsRanked k vw hv hf h1 h2,
   fun h1 h2 => hybrid_vec_weight_zero vecRanked ftsRanked k fw hv hf h1 h2⟩

/-- Witness for C8 at a concrete input: two vector candidates, one shared
fts candidate, `top_k = 1`, fts weight 0. -/
theorem search_hybrid_zero_weight_orders_witness :
    (search_hybrid [⟨1, "a"⟩, ⟨2, "b"⟩] [⟨2, "b"⟩] 1 1 0).map FusedResult.id =
      (search_similar [⟨1, "a"⟩, ⟨2, "b"⟩] 1).map SearchHit.id :=
  (search_hybrid_zero_weight_orders [⟨1, "a"⟩, ⟨2, "b"⟩] [⟨2, "b"⟩] 1 1 1
    (by decide) (by decide)).1 one_pos (by decide)

end RenovationBot
